import Mathlib

/-!
Shallow embedding of the Barnsley fern generation pipeline
(`__main__.py`): the memoized affine transform (`__transform` under
`lru_cache(maxsize=1024)`), the chaos-game point generator
(`fern_point_generator`) and the projector (`rescale_points`).

Real numbers are modelled by `ℚ`; the ambient random source
(`random()`, drawing uniformly from `[0,1)`) is modelled as an explicit
stream `us : ℕ → ℚ` of drawn values, consumed one per loop iteration.
Python `int()` conversion truncates toward zero, which is modelled by
`intTrunc` below.
-/

/-- A 2D point or vector (`glm.vec2`). -/
structure Vec2 where
  x : ℚ
  y : ℚ
deriving DecidableEq, Repr

/-- A 2×2 matrix (`glm.mat2`), stored column-major like glm:
`glm.mat2(a, b, c, d)` has columns `(a, b)` and `(c, d)`. -/
structure Mat2 where
  a : ℚ
  b : ℚ
  c : ℚ
  d : ℚ
deriving DecidableEq, Repr

/-- Matrix-vector product `form * v` (glm column-major convention). -/
def matVec (m : Mat2) (v : Vec2) : Vec2 :=
  ⟨m.a * v.x + m.c * v.y, m.b * v.x + m.d * v.y⟩

/-- Componentwise vector addition. -/
def vadd (u v : Vec2) : Vec2 :=
  ⟨u.x + v.x, u.y + v.y⟩

/-- Componentwise negation, `-current_point` in the source. -/
def vneg (v : Vec2) : Vec2 :=
  ⟨-v.x, -v.y⟩

/-- One section of the options dict: a `form` matrix, an `offset`
vector and a cumulative selection threshold `probability`. -/
structure TransformSpec where
  form : Mat2
  offset : Vec2
  probability : ℚ
deriving DecidableEq, Repr

/-- The options dict consumed by `fern_point_generator`: the four
sections named in `SECTIONS`. -/
structure FernOptions where
  first : TransformSpec
  second : TransformSpec
  third : TransformSpec
  fourth : TransformSpec
deriving DecidableEq, Repr

/-- The affine application computed by `__transform`:
`form * current_point + offset`. -/
def transform (form : Mat2) (current_point : Vec2) (offset : Vec2) : Vec2 :=
  vadd (matVec form current_point) offset

/-- The `DEFAULTS` configuration of the source. -/
def defaultOptions : FernOptions where
  first := ⟨⟨0, 0, 0, 16/100⟩, ⟨0, 0⟩, 1/100⟩
  second := ⟨⟨85/100, 4/100, -(4/100), 85/100⟩, ⟨0, 16/10⟩, 86/100⟩
  third := ⟨⟨-(2/10), 26/100, 23/100, 4/10⟩, ⟨0, 16/10⟩, 93/100⟩
  fourth := ⟨⟨-(15/100), 28/100, 26/100, 24/100⟩, ⟨0, 44/100⟩, 0⟩

/- ## The memoized transform (`functools.lru_cache(maxsize=1024)`) -/

/-- The cache key of `__transform`: its full argument tuple. -/
abbrev CacheKey := Mat2 × Vec2 × Vec2

/-- The `lru_cache` state over `__transform`: association list of
key/value pairs, most recently used first. -/
structure TransformCache where
  entries : List (CacheKey × Vec2)
deriving DecidableEq, Repr

/-- The maxsize=1024 bound of the source. -/
def cacheCapacity : ℕ := 1024

/-- The memoized transform: on hit, return the stored value and move
the entry to the front (most recently used); on miss, compute
`transform`, insert at the front and drop beyond capacity (evicting
the least recently used entry). -/
def cachedTransform (cache : TransformCache) (form : Mat2)
    (current_point : Vec2) (offset : Vec2) : Vec2 × TransformCache :=
  let key : CacheKey := (form, current_point, offset)
  match cache.entries.find? (fun e => decide (e.1 = key)) with
  | some e =>
      (e.2, ⟨(key, e.2) :: cache.entries.filter (fun e2 => decide (¬ e2.1 = key))⟩)
  | none =>
      let v := transform form current_point offset
      (v, ⟨((key, v) :: cache.entries).take cacheCapacity⟩)

/-- Cache well-formedness: every stored value is the affine image of
its key. Holds for the empty cache and is preserved by every
`cachedTransform` call, so it holds in every reachable cache state. -/
def CacheWF (cache : TransformCache) : Prop :=
  ∀ e ∈ cache.entries, e.2 = transform e.1.1 e.1.2.1 e.1.2.2

/- ## The chaos-game point generator (`fern_point_generator`) -/

/-- One iteration of the generator loop: given the drawn `value` and
the current point, the threshold chain of the source
(lines 75-82 of `__main__.py`), the fourth branch applied to the
negated point. -/
def fernStep (options : FernOptions) (current_point : Vec2) (value : ℚ) : Vec2 :=
  if value < options.first.probability then
    transform options.first.form current_point options.first.offset
  else if value < options.second.probability then
    transform options.second.form current_point options.second.offset
  else if value < options.third.probability then
    transform options.third.form current_point options.third.offset
  else
    transform options.fourth.form (vneg current_point) options.fourth.offset

/-- The names of the four sections (`SECTIONS` in the source). -/
inductive SectionName
  | first
  | second
  | third
  | fourth
deriving DecidableEq, Repr

/-- Which section the threshold chain of `fern_point_generator`
selects for a drawn `value`: the same `if/elif/elif/else` cascade as
`fernStep`, returning the section name instead of applying it. -/
def selectSection (options : FernOptions) (value : ℚ) : SectionName :=
  if value < options.first.probability then .first
  else if value < options.second.probability then .second
  else if value < options.third.probability then .third
  else .fourth

/-- Application of a named section to the current point, as performed
by the corresponding branch of `fern_point_generator`: the `fourth`
branch feeds the negated point into the transform. -/
def applySection (options : FernOptions) (s : SectionName) (p : Vec2) : Vec2 :=
  match s with
  | .first => transform options.first.form p options.first.offset
  | .second => transform options.second.form p options.second.offset
  | .third => transform options.third.form p options.third.offset
  | .fourth => transform options.fourth.form (vneg p) options.fourth.offset

/-- The generator loop over an explicit list of drawn values, one
consumed per emitted point: each step yields the new current point. -/
def fernFromDraws (options : FernOptions) (p : Vec2) : List ℚ → List Vec2
  | [] => []
  | u :: rest =>
      let next := fernStep options p u
      next :: fernFromDraws options next rest

/-- The generator state before step `i`: `current_point` starts at the
origin (line 70) and is updated by `fernStep` with the `i`-th draw. -/
def fernState (options : FernOptions) (us : ℕ → ℚ) : ℕ → Vec2
  | 0 => ⟨0, 0⟩
  | i + 1 => fernStep options (fernState options us i) (us i)

/-- The run of `fern_point_generator(number_of_points, options)` to
exhaustion against the draw stream `us`: the loop
`for point_no in range(number_of_points)` draws once, steps, and
yields the new current point. -/
def fernPoints (number_of_points : ℕ) (options : FernOptions) (us : ℕ → ℚ) :
    List Vec2 :=
  fernFromDraws options ⟨0, 0⟩ ((List.range number_of_points).map us)

/-- The generator `fern_point_generator` with a possibly negative `number_of_points`
(a Python `int`): `range(n)` is empty for `n ≤ 0`, so a negative count
silently yields no points — the source performs no validation. -/
def fern_point_generator (number_of_points : ℤ) (options : FernOptions)
    (us : ℕ → ℚ) : List Vec2 :=
  fernPoints number_of_points.toNat options us

/- ## The projector (`rescale_points`) -/

/-- Python `int()` conversion of a real: truncation toward zero. -/
def intTrunc (q : ℚ) : ℤ :=
  if q < 0 then -⌊-q⌋ else ⌊q⌋

/-- One point of `rescale_points`: with
`factor = min(image_size) / 10.5`, the scaled point is
`point * factor` and the emitted pixel is
`(int(point[0] + image_size[0] / 2), int(point[1]))`. -/
def rescalePoint (image_size : ℤ × ℤ) (point : Vec2) : ℤ × ℤ :=
  let factor : ℚ := ((min image_size.1 image_size.2 : ℤ) : ℚ) / (10.5 : ℚ)
  (intTrunc (point.x * factor + (image_size.1 : ℚ) / 2),
   intTrunc (point.y * factor))

/-- The projector `rescale_points(points, image_size)` over a whole
point sequence, one pixel per input point, in input order. -/
def rescale_points (points : List Vec2) (image_size : ℤ × ℤ) : List (ℤ × ℤ) :=
  points.map (rescalePoint image_size)

/-- The floor-based projector that §4.3 of the specification
describes (`floor` in place of Python `int()` truncation); stated for
comparison with `rescalePoint`. -/
def rescalePointSpec (image_size : ℤ × ℤ) (point : Vec2) : ℤ × ℤ :=
  let factor : ℚ := ((min image_size.1 image_size.2 : ℤ) : ℚ) / (10.5 : ℚ)
  (⌊point.x * factor + (image_size.1 : ℚ) / 2⌋,
   ⌊point.y * factor⌋)

/- ## Concrete draw streams and configurations used as test inputs -/

/-- A draw stream that is constantly `1/2`. -/
def usHalf : ℕ → ℚ := fun _ => 1/2

/-- A draw stream: `0` below index 2, then `3`. -/
def usA : ℕ → ℚ := fun i => if i < 2 then 0 else 3

/-- A draw stream agreeing with `usA` below index 2, then `7`. -/
def usB : ℕ → ℚ := fun i => if i < 2 then 0 else 7

/-- A configuration whose `fourth` section is the identity matrix with
zero offset, with all thresholds `0` so that `fourth` is always
selected. -/
def identityFourthOptions : FernOptions where
  first := ⟨⟨0, 0, 0, 0⟩, ⟨0, 0⟩, 0⟩
  second := ⟨⟨0, 0, 0, 0⟩, ⟨0, 0⟩, 0⟩
  third := ⟨⟨0, 0, 0, 0⟩, ⟨0, 0⟩, 0⟩
  fourth := ⟨⟨1, 0, 0, 1⟩, ⟨0, 0⟩, 0⟩

/- ## Helper lemmas -/

/-- The generator loop emits one point per drawn value. -/
theorem fernFromDraws_length (options : FernOptions) (draws : List ℚ) :
    ∀ p : Vec2, (fernFromDraws options p draws).length = draws.length := by
  induction draws with
  | nil => intro p; rfl
  | cons u rest ih => intro p; simp [fernFromDraws, ih]

/-- Running the loop from state `fernState k` over draws `k, …, k+n-1`
emits exactly the states `fernState (k+1), …, fernState (k+n)`. -/
theorem fernFromDraws_range (options : FernOptions) (us : ℕ → ℚ) :
    ∀ n k : ℕ,
      fernFromDraws options (fernState options us k) ((List.range' k n).map us) =
        (List.range' k n).map (fun i => fernState options us (i + 1)) := by
  intro n
  induction n with
  | zero => intro k; rfl
  | succ m ih =>
      intro k
      rw [List.range'_succ]
      simp only [List.map_cons, fernFromDraws]
      exact congrArg (List.cons (fernState options us (k + 1))) (ih (k + 1))

/-- The emitted sequence is the list of successive generator states. -/
theorem fernPoints_eq_map (n : ℕ) (options : FernOptions) (us : ℕ → ℚ) :
    fernPoints n options us =
      (List.range n).map (fun i => fernState options us (i + 1)) := by
  unfold fernPoints
  rw [List.range_eq_range']
  exact fernFromDraws_range options us n 0

/- ## Claim theorems -/

/-- Claim C3: for every non-negative integer `n` and every config,
`generate(n, config)` yields a finite sequence of exactly `n` points,
and `generate(0, config)` yields the empty sequence. -/
theorem generator_yields_exactly_n_points (n : ℕ) (options : FernOptions)
    (us : ℕ → ℚ) :
    (fernPoints n options us).length = n ∧ fernPoints 0 options us = [] := by
  constructor
  · rw [fernPoints_eq_map]; simp
  · rfl

/-- Claim C8: the projector is order-preserving and emits exactly one
pixel coordinate per input point, in input order: the output has the
same length as the input and its `i`-th element is the projection of
the `i`-th input point. -/
theorem projector_order_and_cardinality (points : List Vec2)
    (image_size : ℤ × ℤ) :
    (rescale_points points image_size).length = points.length ∧
    ∀ i : ℕ, (rescale_points points image_size)[i]? =
      (points[i]?).map (rescalePoint image_size) := by
  constructor
  · simp [rescale_points]
  · intro i; simp [rescale_points]

/-- Claim C9: the generator is a deterministic function of the config
and the sequence of random draws — two runs of the same length over
identically seeded sources (equal draws at every consumed index)
produce identical point sequences. -/
theorem generator_deterministic (n : ℕ) (options : FernOptions)
    (us us' : ℕ → ℚ) (h : ∀ i, i < n → us i = us' i) :
    fernPoints n options us = fernPoints n options us' := by
  unfold fernPoints
  have hmap : (List.range n).map us = (List.range n).map us' :=
    List.map_congr_left (fun i hi => h i (List.mem_range.mp hi))
  rw [hmap]

/-- Witness for C9: two streams that agree on the two consumed draws
(and differ afterwards) generate the same two points. -/
theorem generator_deterministic_witness :
    fernPoints 2 defaultOptions usA = fernPoints 2 defaultOptions usB :=
  generator_deterministic 2 defaultOptions usA usB (by
    intro i hi
    simp [usA, usB, hi])

/-- Claim C10: the generator consumes exactly one drawn value per
emitted point (the loop over an explicit draw list emits one point per
draw, and the `n`-point run consumes exactly draws `0, …, n-1`), and
the `i`-th point is determined by the `i`-th draw alone applied to the
preceding state. -/
theorem one_draw_per_point (n : ℕ) (options : FernOptions) (us : ℕ → ℚ) :
    fernPoints n options us =
      fernFromDraws options ⟨0, 0⟩ ((List.range n).map us) ∧
    (∀ (draws : List ℚ) (p : Vec2),
      (fernFromDraws options p draws).length = draws.length) ∧
    (∀ i, i < n → (fernPoints n options us)[i]? =
      some (fernStep options (fernState options us i) (us i))) := by
  refine ⟨rfl, fun draws p => fernFromDraws_length options draws p, ?_⟩
  intro i hi
  rw [fernPoints_eq_map]
  simp [List.getElem?_range, hi]
  rfl

/-- Witness for C10: the single point of a one-point run is the step
of the origin state by draw 0. -/
theorem one_draw_per_point_witness :
    (fernPoints 1 defaultOptions usHalf)[0]? =
      some (fernStep defaultOptions ⟨0, 0⟩ (usHalf 0)) :=
  (one_draw_per_point 1 defaultOptions usHalf).2.2 0 (by decide)

/-- Claim C1: for every drawn value `u` and config, the threshold
chain selects exactly one section, by cumulative threshold with strict
comparisons: `first` iff `u < first.probability`, `second` iff
`first.probability ≤ u < second.probability`, `third` iff
`second.probability ≤ u < third.probability` (and above the first two),
else `fourth`; a `u` exactly equal to a threshold selects the next
range; and the generator step applies exactly the selected section. -/
theorem threshold_selection (options : FernOptions) (u : ℚ) :
    (selectSection options u = SectionName.first ↔
      u < options.first.probability) ∧
    (selectSection options u = SectionName.second ↔
      options.first.probability ≤ u ∧ u < options.second.probability) ∧
    (selectSection options u = SectionName.third ↔
      options.first.probability ≤ u ∧ options.second.probability ≤ u ∧
        u < options.third.probability) ∧
    (selectSection options u = SectionName.fourth ↔
      options.first.probability ≤ u ∧ options.second.probability ≤ u ∧
        options.third.probability ≤ u) ∧
    (u = options.first.probability →
      selectSection options u ≠ SectionName.first) ∧
    (u = options.second.probability →
      selectSection options u ≠ SectionName.second) ∧
    (u = options.third.probability →
      selectSection options u ≠ SectionName.third) ∧
    (∀ p : Vec2,
      fernStep options p u = applySection options (selectSection options u) p) := by
  unfold selectSection fernStep applySection
  split_ifs with h1 h2 h3 <;>
    refine ⟨?_, ?_, ?_, ?_, ?_, ?_, ?_, fun p => rfl⟩ <;>
    simp_all [not_lt] <;>
    intro _ <;>
    linarith

/-- Witness for C1: with the default configuration, a draw exactly at
the first threshold does not select `first`. -/
theorem threshold_selection_witness :
    selectSection defaultOptions (1/100) ≠ SectionName.first :=
  (threshold_selection defaultOptions (1/100)).2.2.2.2.1 rfl

/-- Claim C2: whenever the fourth section is selected (the drawn value
is below none of the three thresholds), the next point is the fourth
affine map applied to the negation of the current point,
`M4 * (-p) + b4` — the negation touches only the input, never the
emitted result; in particular, with `fourth` the identity map with
zero offset, the step emits exactly the negation of the previous
point. -/
theorem fourth_on_negated_point (options : FernOptions) (p : Vec2) (u : ℚ)
    (h1 : ¬ u < options.first.probability)
    (h2 : ¬ u < options.second.probability)
    (h3 : ¬ u < options.third.probability) :
    fernStep options p u =
      vadd (matVec options.fourth.form (vneg p)) options.fourth.offset ∧
    (options.fourth.form = Mat2.mk 1 0 0 1 → options.fourth.offset = Vec2.mk 0 0 →
      fernStep options p u = vneg p) := by
  have hstep : fernStep options p u =
      transform options.fourth.form (vneg p) options.fourth.offset := by
    unfold fernStep
    rw [if_neg h1, if_neg h2, if_neg h3]
  refine ⟨hstep, fun hf ho => ?_⟩
  rw [hstep, hf, ho]
  cases p with
  | mk px py => simp [transform, vadd, matVec, vneg]

/-- Witness for C2: with the identity-`fourth` configuration (all
thresholds `0`), the step at the point `(3, 4)` with draw `1/2` emits
`(-3, -4)`. -/
theorem fourth_on_negated_point_witness :
    fernStep identityFourthOptions ⟨3, 4⟩ (1/2) = vneg ⟨3, 4⟩ :=
  (fourth_on_negated_point identityFourthOptions ⟨3, 4⟩ (1/2)
    (by norm_num [identityFourthOptions]) (by norm_num [identityFourthOptions])
    (by norm_num [identityFourthOptions])).2 rfl rfl

/-- Truncation toward zero agrees with floor on non-negative inputs. -/
theorem intTrunc_of_nonneg (q : ℚ) (h : 0 ≤ q) : intTrunc q = ⌊q⌋ :=
  if_neg (not_lt.mpr h)

/-- Counterexample for C4: the projector truncates toward zero
(Python `int()`), not floor. At `targetSize = (1000, 1000)` the point
`(0, -1)` is emitted as `(500, -95)` while the floor formula gives
`(500, -96)`. -/
theorem projector_floor_counterexample :
    rescalePoint (1000, 1000) ⟨0, -1⟩ = (500, -95) ∧
    rescalePointSpec (1000, 1000) ⟨0, -1⟩ = (500, -96) ∧
    rescalePoint (1000, 1000) ⟨0, -1⟩ ≠ rescalePointSpec (1000, 1000) ⟨0, -1⟩ := by
  refine ⟨?_, ?_, ?_⟩ <;>
    norm_num [rescalePoint, rescalePointSpec, intTrunc]

/-- Claim C4 (amended): with `factor = min(width, height) / 10.5`, the
projector emits `(trunc(x * factor + width / 2), trunc(y * factor))`
where `trunc` rounds toward zero; this agrees with `floor` whenever
the scaled coordinate is non-negative, and `(1.0, 2.0)` at
`targetSize = (1000, 1000)` projects to `(595, 190)`. -/
theorem projector_truncates (w h : ℤ) (p : Vec2) :
    rescalePoint (w, h) p =
      (intTrunc (p.x * (((min w h : ℤ) : ℚ) / (10.5 : ℚ)) + (w : ℚ) / 2),
       intTrunc (p.y * (((min w h : ℤ) : ℚ) / (10.5 : ℚ)))) ∧
    (0 ≤ p.y * (((min w h : ℤ) : ℚ) / (10.5 : ℚ)) →
      (rescalePoint (w, h) p).2 =
        ⌊p.y * (((min w h : ℤ) : ℚ) / (10.5 : ℚ))⌋) ∧
    (0 ≤ p.x * (((min w h : ℤ) : ℚ) / (10.5 : ℚ)) + (w : ℚ) / 2 →
      (rescalePoint (w, h) p).1 =
        ⌊p.x * (((min w h : ℤ) : ℚ) / (10.5 : ℚ)) + (w : ℚ) / 2⌋) ∧
    rescalePoint (1000, 1000) ⟨1, 2⟩ = (595, 190) := by
  refine ⟨rfl, fun hy => ?_, fun hx => ?_, ?_⟩
  · exact intTrunc_of_nonneg _ hy
  · exact intTrunc_of_nonneg _ hx
  · norm_num [rescalePoint, intTrunc]

/-- Witness for C4 (amended): the second pixel coordinate of the point
`(1, 2)` at `targetSize = (1000, 1000)` is the floor of the scaled
coordinate, since that coordinate is non-negative. -/
theorem projector_truncates_witness :
    (rescalePoint (1000, 1000) ⟨1, 2⟩).2 =
      ⌊(2 : ℚ) * (((min (1000 : ℤ) 1000 : ℤ) : ℚ) / (10.5 : ℚ))⌋ :=
  (projector_truncates 1000 1000 ⟨1, 2⟩).2.1 (by norm_num)

/-- Counterexample for C5: the origin is never emitted — the first
yielded point is already the image of the origin under the selected
transform. With the default configuration and a constant draw of
`1/2`, the one-point run emits only `(0, 1.6)`, so `(0, 0)` is not in
the output sequence. -/
theorem origin_not_emitted :
    fernPoints 1 defaultOptions usHalf = [⟨0, 16/10⟩] ∧
    (⟨0, 0⟩ : Vec2) ∉ fernPoints 1 defaultOptions usHalf := by
  have hrun : fernPoints 1 defaultOptions usHalf = [⟨0, 16/10⟩] := by
    norm_num [fernPoints, fernFromDraws, fernStep, defaultOptions, usHalf,
      transform, vadd, matVec, List.range_succ]
  refine ⟨hrun, ?_⟩
  rw [hrun]
  norm_num

/-- Claim C5 (amended): the generation run starts from the fixed
origin `(0, 0)` as its internal state, and for every `pointCount ≥ 1`
the first emitted point is the selected transform applied to the
origin (the origin itself is fed into the first step, not emitted). -/
theorem first_emitted_point (n : ℕ) (options : FernOptions) (us : ℕ → ℚ)
    (h : 0 < n) :
    (fernPoints n options us)[0]? =
      some (fernStep options ⟨0, 0⟩ (us 0)) := by
  rw [fernPoints_eq_map]
  simp [List.getElem?_range, h]
  rfl

/-- Witness for C5 (amended): the first point of a one-point default
run is the step of the origin by draw 0. -/
theorem first_emitted_point_witness :
    (fernPoints 1 defaultOptions usA)[0]? =
      some (fernStep defaultOptions ⟨0, 0⟩ (usA 0)) :=
  first_emitted_point 1 defaultOptions usA (by decide)

/-- Counterexample for C6: a negative `pointCount` is not rejected —
`range(-5)` is simply empty, so the generator runs to completion and
returns the empty sequence instead of failing with an
invalid-argument condition. -/
theorem negative_count_yields_empty :
    fern_point_generator (-5) defaultOptions usHalf = [] := rfl

/-- Claim C6 (amended): the source performs no argument validation: a
negative `pointCount` silently yields the empty sequence (no failure
and no output at all), and matrix/offset entries are never checked. -/
theorem negative_count_no_failure (n : ℤ) (options : FernOptions)
    (us : ℕ → ℚ) (h : n < 0) :
    fern_point_generator n options us = [] := by
  unfold fern_point_generator
  rw [Int.toNat_of_nonpos (le_of_lt h)]
  rfl

/-- Witness for C6 (amended): a run with `pointCount = -3` yields no
points. -/
theorem negative_count_no_failure_witness :
    fern_point_generator (-3) defaultOptions usA = [] :=
  negative_count_no_failure (-3) defaultOptions usA (by decide)

/-- Claim C7: the memoized transform is observably equal to the
uncached affine computation: in every well-formed cache state (which
includes every state reachable from the empty cache — hits, misses,
and LRU evictions at capacity 1024 alike), the cached apply returns
exactly `spec.M * point + spec.b`, and the cache stays well-formed. -/
theorem cached_transform_correct (cache : TransformCache) (hwf : CacheWF cache)
    (form : Mat2) (p offset : Vec2) :
    (cachedTransform cache form p offset).1 = transform form p offset ∧
    CacheWF (cachedTransform cache form p offset).2 := by
  rcases hfind : cache.entries.find? (fun e => decide (e.1 = (form, p, offset)))
    with _ | e
  · constructor
    · simp [cachedTransform, hfind]
    · intro q hq
      simp only [cachedTransform, hfind] at hq
      have hq2 := List.mem_of_mem_take hq
      rcases List.mem_cons.mp hq2 with hq3 | hq4
      · subst hq3; rfl
      · exact hwf q hq4
  · have hpe := @List.find?_some _ (fun e2 => decide (e2.1 = (form, p, offset)))
      e cache.entries hfind
    have hkey : e.1 = (form, p, offset) := of_decide_eq_true hpe
    have hmem : e ∈ cache.entries := List.mem_of_find?_eq_some hfind
    have hval : e.2 = transform form p offset := by
      have h0 := hwf e hmem
      rw [hkey] at h0
      exact h0
    constructor
    · simp [cachedTransform, hfind, hval]
    · intro q hq
      simp only [cachedTransform, hfind] at hq
      rcases List.mem_cons.mp hq with hq1 | hq2
      · subst hq1; exact hval
      · exact hwf q (List.mem_filter.mp hq2).1

/-- Witness for C7: a call on the empty (well-formed) cache returns
the direct affine computation. -/
theorem cached_transform_correct_witness :
    (cachedTransform ⟨[]⟩ ⟨1, 0, 0, 1⟩ ⟨2, 3⟩ ⟨0, 0⟩).1 =
      transform ⟨1, 0, 0, 1⟩ ⟨2, 3⟩ ⟨0, 0⟩ :=
  (cached_transform_correct ⟨[]⟩ (fun e he => absurd he (List.not_mem_nil e))
    ⟨1, 0, 0, 1⟩ ⟨2, 3⟩ ⟨0, 0⟩).1
